import Mathlib

/-!
Verification of the evolvable_numerals repository: a variable-resolution
binary genome (BinaryPGA2, a bit vector) with mutation operators and a
proportional projection of its set-bit count onto a numeric range.

Modelling conventions.
The Rust random generator (rand::Rng, including the process-wide
rand::thread_rng() used by the convenience constructors and by
increase_resolution) is modelled as an explicit state Rng carrying two
streams: a stream of uniform samples in the half-open unit interval, from
which gen_bool(p) decides by comparing the next sample against p, and a
stream of uniform booleans for gen().  The f64 arithmetic of the
projection is modelled exactly over the rationals; the one place where
IEEE arithmetic departs from exact arithmetic on the values this code
computes is the division 0.0/0.0 (NaN) reached when the bit vector is
empty, so the projection returns an Option, with none standing for the
NaN produced by the empty genome and some of the exact value otherwise.
-/

namespace EvolvableNumerals

/-- Random generator state: a stream of uniform samples in the half-open
unit interval (each gen_bool call consumes one, comparing it against the
given probability) and a stream of uniform booleans (each gen call
consumes one), with cursors into both streams. -/
structure Rng where
  sample : ℕ → ℚ
  bit : ℕ → Bool
  sIdx : ℕ
  bIdx : ℕ
  sample_nonneg : ∀ i, 0 ≤ sample i
  sample_lt_one : ∀ i, sample i < 1

/-- Advance the sample cursor. -/
def Rng.bumpS (r : Rng) : Rng :=
  ⟨r.sample, r.bit, r.sIdx + 1, r.bIdx, r.sample_nonneg, r.sample_lt_one⟩

/-- Advance the bit cursor. -/
def Rng.bumpB (r : Rng) : Rng :=
  ⟨r.sample, r.bit, r.sIdx, r.bIdx + 1, r.sample_nonneg, r.sample_lt_one⟩

/-- Model of rand's gen_bool(p): draw the next uniform sample and return
true exactly when it falls below p.  Always true at p = 1 (samples are
below one) and always false at p = 0 (samples are nonnegative). -/
def Rng.genBool (p : ℚ) (r : Rng) : Bool × Rng :=
  (decide (r.sample r.sIdx < p), r.bumpS)

/-- Model of rand's gen::<bool>(): draw the next uniform boolean. -/
def Rng.genBit (r : Rng) : Bool × Rng :=
  (r.bit r.bIdx, r.bumpB)

/-- BinaryPGA2 from src/lib.rs: a genome owning an ordered bit sequence
(the Rust BitVec), modelled as a list of booleans. -/
structure BinaryPGA2 where
  bits : List Bool

/-- Resolution of the genome: the length of the underlying bit sequence
(self.0.len() in the source). -/
def BinaryPGA2.resolution (g : BinaryPGA2) : ℕ := g.bits.length

/-- Number of set bits (self.0.count_ones() in the source). -/
def BinaryPGA2.setBitCount (g : BinaryPGA2) : ℕ := g.bits.count true

/-- BinaryPGA2::new: one bit of initial resolution, drawn from the
random source (thread_rng in the source, the bit stream here). -/
def BinaryPGA2.new (r : Rng) : BinaryPGA2 × Rng :=
  (⟨[(r.genBit).1]⟩, (r.genBit).2)

/-- Draw n booleans from the random source, in order. -/
def drawBits : ℕ → Rng → List Bool × Rng
  | 0, r => ([], r)
  | n + 1, r =>
      ((r.genBit).1 :: (drawBits n (r.genBit).2).1, (drawBits n (r.genBit).2).2)

/-- BinaryPGA2::with_resolution: push resolution random bits onto an
empty bit vector. -/
def BinaryPGA2.with_resolution (n : ℕ) (r : Rng) : BinaryPGA2 × Rng :=
  (⟨(drawBits n r).1⟩, (drawBits n r).2)

/-- BinaryPGA2::increase_resolution: push one random bit onto the end of
the bit vector (the source draws it from thread_rng, modelled by the
generator's bit stream). -/
def BinaryPGA2.increase_resolution (g : BinaryPGA2) (r : Rng) : BinaryPGA2 × Rng :=
  (⟨g.bits ++ [(r.genBit).1]⟩, (r.genBit).2)

/-- BinaryPGA2::decrease_resolution: if the length exceeds one, pop the
last bit; otherwise leave the genome unchanged. -/
def BinaryPGA2.decrease_resolution (g : BinaryPGA2) : BinaryPGA2 :=
  if 1 < g.bits.length then ⟨g.bits.dropLast⟩ else g

/-- Body of BinaryPGA2::mutate: walk the bits in order and, for each,
draw gen_bool(mutation_rate); on true replace the bit by its negation. -/
def mutateBits (rate : ℚ) : List Bool → Rng → List Bool × Rng
  | [], r => ([], r)
  | b :: bs, r =>
      ((if (Rng.genBool rate r).1 then !b else b)
          :: (mutateBits rate bs (Rng.genBool rate r).2).1,
       (mutateBits rate bs (Rng.genBool rate r).2).2)

/-- BinaryPGA2::mutate: flip every bit independently with probability
mutation_rate. -/
def BinaryPGA2.mutate (g : BinaryPGA2) (rate : ℚ) (r : Rng) : BinaryPGA2 × Rng :=
  (⟨(mutateBits rate g.bits r).1⟩, (mutateBits rate g.bits r).2)

/-- BinaryPGA2::f64: (count_ones / len) * (end - start) + start, in exact
rational arithmetic; none models the NaN from 0.0/0.0 when the bit
vector is empty (count_ones is 0 whenever len is 0, and NaN propagates
through the remaining multiplication and addition). -/
def BinaryPGA2.f64 (g : BinaryPGA2) (lower upper : ℚ) : Option ℚ :=
  if g.bits.length = 0 then none
  else some (((g.bits.count true : ℚ) / (g.bits.length : ℚ)) * (upper - lower) + lower)

/-- EvolvableNumeral::mutate_value from src/f64.rs: delegate to the
genome's mutate. -/
def mutate_value (g : BinaryPGA2) (rate : ℚ) (r : Rng) : BinaryPGA2 × Rng :=
  g.mutate rate r

/-- First if-statement of EvolvableNumeral::mutate_resolution from
src/f64.rs: a Bernoulli draw at mutation_rate gating
increase_resolution. -/
def mutRes1 (g : BinaryPGA2) (rate : ℚ) (r : Rng) : BinaryPGA2 × Rng :=
  if (Rng.genBool rate r).1 then BinaryPGA2.increase_resolution g (Rng.genBool rate r).2
  else (g, (Rng.genBool rate r).2)

/-- Second if-statement of EvolvableNumeral::mutate_resolution from
src/f64.rs: a Bernoulli draw at mutation_rate gating
decrease_resolution. -/
def mutRes2 (s : BinaryPGA2 × Rng) (rate : ℚ) : BinaryPGA2 × Rng :=
  if (Rng.genBool rate s.2).1 then
    (BinaryPGA2.decrease_resolution s.1, (Rng.genBool rate s.2).2)
  else (s.1, (Rng.genBool rate s.2).2)

/-- EvolvableNumeral::mutate_resolution from src/f64.rs: one Bernoulli
draw at mutation_rate gating increase_resolution, then a second draw at
mutation_rate gating decrease_resolution. -/
def mutate_resolution (g : BinaryPGA2) (rate : ℚ) (r : Rng) : BinaryPGA2 × Rng :=
  mutRes2 (mutRes1 g rate r) rate

/-- One operation of the genome's public mutation interface. -/
inductive GenomeOp where
  | increaseRes : GenomeOp
  | decreaseRes : GenomeOp
  | mutateOp : ℚ → GenomeOp
  | mutateValueOp : ℚ → GenomeOp
  | mutateResOp : ℚ → GenomeOp

/-- Apply one operation to a genome and generator state. -/
def applyOp : GenomeOp → BinaryPGA2 × Rng → BinaryPGA2 × Rng
  | .increaseRes, s => BinaryPGA2.increase_resolution s.1 s.2
  | .decreaseRes, s => (BinaryPGA2.decrease_resolution s.1, s.2)
  | .mutateOp rate, s => BinaryPGA2.mutate s.1 rate s.2
  | .mutateValueOp rate, s => mutate_value s.1 rate s.2
  | .mutateResOp rate, s => mutate_resolution s.1 rate s.2

/-- Run a sequence of operations from a starting state. -/
def runOps : List GenomeOp → BinaryPGA2 × Rng → BinaryPGA2 × Rng
  | [], s => s
  | op :: ops, s => runOps ops (applyOp op s)

/-- Concrete generator whose samples are all zero (every Bernoulli draw
at a positive rate fires) and whose bits are all true. -/
def rngZero : Rng :=
  ⟨fun _ => 0, fun _ => true, 0, 0, fun _ => le_refl 0, fun _ => by norm_num⟩

/-- Concrete sequence of operations exercising the whole mutation
interface. -/
def ops0 : List GenomeOp :=
  [GenomeOp.decreaseRes, GenomeOp.mutateResOp 1, GenomeOp.increaseRes,
   GenomeOp.mutateOp 1, GenomeOp.mutateValueOp 0, GenomeOp.decreaseRes]

/-- Generator whose first two Bernoulli draws at the given rate produce
the two prescribed outcomes: a sample of zero forces a draw to fire and
a sample equal to the rate forces it not to. -/
def twoDrawRng (rate : ℚ) (h0 : 0 ≤ rate) (h1 : rate < 1) (o1 o2 : Bool) : Rng :=
  ⟨fun i => if (if i = 0 then o1 else o2) then 0 else rate,
   fun _ => true, 0, 0,
   fun i => by by_cases h : (if i = 0 then o1 else o2) = true <;> simp [h, h0],
   fun i => by by_cases h : (if i = 0 then o1 else o2) = true <;> simp [h, h1]⟩

end EvolvableNumerals

namespace EvolvableNumerals

/-- Helper: a genome with at least one bit has a nonempty bit list. -/
theorem length_ne_zero_of_res {g : BinaryPGA2} (h : 1 ≤ g.resolution) :
    g.bits.length ≠ 0 := by
  unfold BinaryPGA2.resolution at h
  omega

/-- C1: for every genome of resolution at least one and every range, the
f64 projection returns (set_bit_count / resolution) * (upper - lower) +
lower, the denominator being the genome's current resolution. -/
theorem f64_uses_current_resolution (g : BinaryPGA2) (lower upper : ℚ)
    (h : 1 ≤ g.resolution) :
    g.f64 lower upper =
      some (((g.setBitCount : ℚ) / (g.resolution : ℚ)) * (upper - lower) + lower) := by
  unfold BinaryPGA2.f64 BinaryPGA2.setBitCount BinaryPGA2.resolution
  rw [if_neg (length_ne_zero_of_res h)]

theorem f64_uses_current_resolution_witness :
    BinaryPGA2.f64 ⟨[true, false]⟩ 0 1 =
      some (((BinaryPGA2.setBitCount ⟨[true, false]⟩ : ℚ) /
        (BinaryPGA2.resolution ⟨[true, false]⟩ : ℚ)) * (1 - 0) + 0) :=
  f64_uses_current_resolution ⟨[true, false]⟩ 0 1 (by decide)

/-- C2: the projected value depends only on the set-bit count and the
resolution: permuting a genome's bits leaves the projection unchanged,
and any two genomes of equal length and equal set-bit count project to
equal values on the same range. -/
theorem f64_depends_only_on_count (g1 g2 : BinaryPGA2) (lower upper : ℚ) :
    (g1.bits.Perm g2.bits → g1.f64 lower upper = g2.f64 lower upper) ∧
    (g1.resolution = g2.resolution → g1.setBitCount = g2.setBitCount →
      g1.f64 lower upper = g2.f64 lower upper) := by
  have key : g1.resolution = g2.resolution → g1.setBitCount = g2.setBitCount →
      g1.f64 lower upper = g2.f64 lower upper := by
    intro hlen hcnt
    unfold BinaryPGA2.resolution at hlen
    unfold BinaryPGA2.setBitCount at hcnt
    unfold BinaryPGA2.f64
    rw [hlen, hcnt]
  exact ⟨fun hp => key hp.length_eq (hp.count_eq true), key⟩

theorem f64_depends_only_on_count_witness :
    (BinaryPGA2.f64 ⟨[true, false]⟩ 0 1 = BinaryPGA2.f64 ⟨[false, true]⟩ 0 1) ∧
    (BinaryPGA2.f64 ⟨[true, false]⟩ 2 3 = BinaryPGA2.f64 ⟨[false, true]⟩ 2 3) :=
  ⟨(f64_depends_only_on_count ⟨[true, false]⟩ ⟨[false, true]⟩ 0 1).1 (by decide),
   (f64_depends_only_on_count ⟨[true, false]⟩ ⟨[false, true]⟩ 2 3).2 (by decide) (by decide)⟩

/-- C3: for every genome of resolution at least one and every range with
lower < upper, the f64 projection yields a value within the closed
interval from lower to upper. -/
theorem f64_within_range (g : BinaryPGA2) (lower upper : ℚ)
    (hres : 1 ≤ g.resolution) (hlt : lower < upper) :
    ∃ v, g.f64 lower upper = some v ∧ lower ≤ v ∧ v ≤ upper := by
  have hn : g.bits.length ≠ 0 := length_ne_zero_of_res hres
  have hn0 : (0 : ℚ) < (g.bits.length : ℚ) := by
    exact_mod_cast Nat.pos_of_ne_zero hn
  have hc0 : (0 : ℚ) ≤ (g.bits.count true : ℚ) := by positivity
  have hcn : (g.bits.count true : ℚ) ≤ (g.bits.length : ℚ) := by
    exact_mod_cast List.count_le_length true g.bits
  have hq0 : 0 ≤ (g.bits.count true : ℚ) / (g.bits.length : ℚ) :=
    div_nonneg hc0 hn0.le
  have hq1 : (g.bits.count true : ℚ) / (g.bits.length : ℚ) ≤ 1 :=
    (div_le_one hn0).mpr hcn
  have hul : (0 : ℚ) ≤ upper - lower := sub_nonneg.mpr hlt.le
  refine ⟨(g.bits.count true : ℚ) / (g.bits.length : ℚ) * (upper - lower) + lower,
    ?_, ?_, ?_⟩
  · unfold BinaryPGA2.f64
    rw [if_neg hn]
  · nlinarith
  · nlinarith

theorem f64_within_range_witness :
    ∃ v, BinaryPGA2.f64 ⟨[true, false]⟩ 0 1 = some v ∧ 0 ≤ v ∧ v ≤ 1 :=
  f64_within_range ⟨[true, false]⟩ 0 1 (by decide) (by norm_num)

/-- C4: for every genome of resolution at least one and every range with
lower < upper, the f64 projection is exactly lower when all bits are
zero and exactly upper when all bits are one. -/
theorem f64_extremes (g : BinaryPGA2) (lower upper : ℚ)
    (hres : 1 ≤ g.resolution) (hlt : lower < upper) :
    ((∀ b ∈ g.bits, b = false) → g.f64 lower upper = some lower) ∧
    ((∀ b ∈ g.bits, b = true) → g.f64 lower upper = some upper) := by
  have hn : g.bits.length ≠ 0 := length_ne_zero_of_res hres
  have hn0 : ((g.bits.length : ℚ)) ≠ 0 := by
    exact_mod_cast hn
  constructor
  · intro hall
    have hc : g.bits.count true = 0 :=
      List.count_eq_zero.mpr (fun hmem => by simpa using hall true hmem)
    unfold BinaryPGA2.f64
    rw [if_neg hn, hc]
    norm_num
  · intro hall
    have hc : g.bits.count true = g.bits.length :=
      List.count_eq_length.mpr (fun b hb => (hall b hb).symm)
    unfold BinaryPGA2.f64
    rw [if_neg hn, hc, div_self hn0, one_mul, sub_add_cancel]

theorem f64_extremes_witness :
    (BinaryPGA2.f64 ⟨[false, false]⟩ 2 5 = some 2) ∧
    (BinaryPGA2.f64 ⟨[true, true, true]⟩ 2 5 = some 5) :=
  ⟨(f64_extremes ⟨[false, false]⟩ 2 5 (by decide) (by norm_num)).1 (by decide),
   (f64_extremes ⟨[true, true, true]⟩ 2 5 (by decide) (by norm_num)).2 (by decide)⟩

end EvolvableNumerals

namespace EvolvableNumerals

/-- Helper: mutation preserves the number of bits. -/
theorem mutateBits_length (rate : ℚ) (bs : List Bool) :
    ∀ r : Rng, ((mutateBits rate bs r).1).length = bs.length := by
  induction bs with
  | nil => intro r; rfl
  | cons b bs ih => intro r; simp [mutateBits, ih]

/-- Helper: at mutation rate one every draw fires, so every bit is
negated. -/
theorem mutateBits_rate_one (bs : List Bool) :
    ∀ r : Rng, (mutateBits 1 bs r).1 = bs.map not := by
  induction bs with
  | nil => intro r; rfl
  | cons b bs ih =>
      intro r
      have hdec : (Rng.genBool 1 r).1 = true := by
        simp only [Rng.genBool, decide_eq_true_eq]
        exact r.sample_lt_one r.sIdx
      simp [mutateBits, hdec, ih]

/-- Helper: at mutation rate zero no draw fires, so every bit is kept. -/
theorem mutateBits_rate_zero (bs : List Bool) :
    ∀ r : Rng, (mutateBits 0 bs r).1 = bs := by
  induction bs with
  | nil => intro r; rfl
  | cons b bs ih =>
      intro r
      have hdec : (Rng.genBool 0 r).1 = false := by
        simp only [Rng.genBool, decide_eq_false_iff_not]
        exact not_lt.mpr (r.sample_nonneg r.sIdx)
      simp [mutateBits, hdec, ih]

/-- Helper: a list ANDed pointwise with its negation has no set bits. -/
theorem zipWith_and_map_not_count (bs : List Bool) :
    (List.zipWith (fun a b => a && b) bs (bs.map not)).count true = 0 := by
  induction bs with
  | nil => rfl
  | cons b bs ih => simp [List.count_cons, ih]

/-- C6: mutate with mutation_rate one flips every bit, so the pointwise
AND of the pre- and post-mutation bit sequences has zero set bits. -/
theorem mutate_rate_one_flips_all (g : BinaryPGA2) (r : Rng) :
    (List.zipWith (fun a b => a && b) g.bits ((g.mutate 1 r).1.bits)).count true = 0 := by
  have hb : ((g.mutate 1 r).1).bits = g.bits.map not := mutateBits_rate_one g.bits r
  rw [hb]
  exact zipWith_and_map_not_count g.bits

/-- C7: mutate with mutation_rate zero leaves the genome bit-for-bit
unchanged. -/
theorem mutate_rate_zero_identity (g : BinaryPGA2) (r : Rng) :
    ((g.mutate 0 r).1).bits = g.bits ∧ (g.mutate 0 r).1 = g := by
  have hb : ((g.mutate 0 r).1).bits = g.bits := mutateBits_rate_zero g.bits r
  refine ⟨hb, ?_⟩
  cases g with
  | mk bs => exact congrArg BinaryPGA2.mk hb

end EvolvableNumerals

namespace EvolvableNumerals

/-- Helper: with_resolution draws exactly the requested number of bits. -/
theorem drawBits_length (n : ℕ) : ∀ r : Rng, ((drawBits n r).1).length = n := by
  induction n with
  | zero => intro r; rfl
  | succ n ih => intro r; simp [drawBits, ih]

/-- Helper: increasing the resolution adds exactly one bit. -/
theorem increase_resolution_res (g : BinaryPGA2) (r : Rng) :
    ((g.increase_resolution r).1).resolution = g.resolution + 1 := by
  simp [BinaryPGA2.increase_resolution, BinaryPGA2.resolution]

/-- Helper: decreasing the resolution never empties the genome. -/
theorem decrease_resolution_res_ge_one {g : BinaryPGA2} (h : 1 ≤ g.resolution) :
    1 ≤ (g.decrease_resolution).resolution := by
  unfold BinaryPGA2.resolution at *
  unfold BinaryPGA2.decrease_resolution
  split
  · next hgt => simp only [List.length_dropLast]; omega
  · exact h

/-- Helper: mutation preserves the resolution. -/
theorem mutate_res (g : BinaryPGA2) (rate : ℚ) (r : Rng) :
    ((g.mutate rate r).1).resolution = g.resolution := by
  unfold BinaryPGA2.mutate BinaryPGA2.resolution
  exact mutateBits_length rate g.bits r

/-- Helper: the increase step of mutate_resolution never shrinks the
genome. -/
theorem mutRes1_res_ge_one (g : BinaryPGA2) (rate : ℚ) (r : Rng)
    (h : 1 ≤ g.resolution) : 1 ≤ ((mutRes1 g rate r).1).resolution := by
  unfold mutRes1
  split
  · rw [increase_resolution_res]; omega
  · exact h

/-- Helper: the decrease step of mutate_resolution never empties the
genome. -/
theorem mutRes2_res_ge_one (s : BinaryPGA2 × Rng) (rate : ℚ)
    (h : 1 ≤ s.1.resolution) : 1 ≤ ((mutRes2 s rate).1).resolution := by
  unfold mutRes2
  split
  · exact decrease_resolution_res_ge_one h
  · exact h

/-- Helper: every operation of the public interface preserves a genome
of resolution at least one. -/
theorem applyOp_res_ge_one (op : GenomeOp) (s : BinaryPGA2 × Rng)
    (h : 1 ≤ s.1.resolution) : 1 ≤ ((applyOp op s).1).resolution := by
  cases op with
  | increaseRes => rw [applyOp, increase_resolution_res]; omega
  | decreaseRes => exact decrease_resolution_res_ge_one h
  | mutateOp rate => rw [applyOp, mutate_res]; exact h
  | mutateValueOp rate =>
      rw [applyOp]
      unfold mutate_value
      rw [mutate_res]
      exact h
  | mutateResOp rate =>
      rw [applyOp]
      unfold mutate_resolution
      exact mutRes2_res_ge_one _ rate (mutRes1_res_ge_one _ rate _ h)

/-- Helper: resolution at least one is invariant under any sequence of
operations. -/
theorem runOps_res_ge_one (ops : List GenomeOp) :
    ∀ s : BinaryPGA2 × Rng, 1 ≤ s.1.resolution →
      1 ≤ ((runOps ops s).1).resolution := by
  induction ops with
  | nil => intro s h; exact h
  | cons op ops ih => intro s h; exact ih _ (applyOp_res_ge_one op s h)

/-- C5: decrease_resolution removes exactly the last bit when resolution
exceeds one and is a no-op at resolution one; consequently, starting
from new or from with_resolution with a positive argument, no sequence
of the mutation operations ever brings the resolution below one. -/
theorem decrease_resolution_spec (g : BinaryPGA2) (n : ℕ) (r r2 : Rng)
    (ops : List GenomeOp) (hn : 1 ≤ n) :
    (1 < g.resolution →
      (g.decrease_resolution).resolution = g.resolution - 1 ∧
      (g.decrease_resolution).bits = g.bits.dropLast) ∧
    (g.resolution = 1 → g.decrease_resolution = g) ∧
    1 ≤ ((runOps ops (BinaryPGA2.new r)).1).resolution ∧
    1 ≤ ((runOps ops (BinaryPGA2.with_resolution n r2)).1).resolution := by
  refine ⟨?_, ?_, ?_, ?_⟩
  · intro hgt
    unfold BinaryPGA2.resolution at *
    unfold BinaryPGA2.decrease_resolution
    rw [if_pos hgt]
    exact ⟨by simp [List.length_dropLast], rfl⟩
  · intro h1
    unfold BinaryPGA2.resolution at h1
    unfold BinaryPGA2.decrease_resolution
    rw [if_neg (by omega)]
  · exact runOps_res_ge_one ops _ (by rfl)
  · refine runOps_res_ge_one ops _ ?_
    show 1 ≤ ((BinaryPGA2.with_resolution n r2).1).resolution
    unfold BinaryPGA2.with_resolution BinaryPGA2.resolution
    rw [drawBits_length n r2]
    exact hn

end EvolvableNumerals

namespace EvolvableNumerals

/-- Helper: the genome produced by the increase step, as a conditional. -/
theorem mutRes1_fst (g : BinaryPGA2) (rate : ℚ) (r : Rng) :
    (mutRes1 g rate r).1 =
      if (Rng.genBool rate r).1 then
        BinaryPGA2.mk (g.bits ++ [(((Rng.genBool rate r).2).genBit).1])
      else g := by
  by_cases h : ((Rng.genBool rate r).1 = true) <;>
    simp [mutRes1, BinaryPGA2.increase_resolution, h]

/-- Helper: the second Bernoulli draw of mutate_resolution does not
depend on whether the first fired, because drawing a bit advances only
the bit cursor. -/
theorem second_draw_fst_eq (g : BinaryPGA2) (rate p : ℚ) (r : Rng) :
    (Rng.genBool p (mutRes1 g rate r).2).1 =
      (Rng.genBool p (Rng.genBool rate r).2).1 := by
  by_cases h : r.sample r.sIdx < rate <;>
    simp [mutRes1, BinaryPGA2.increase_resolution, h, Rng.genBit, Rng.genBool,
      Rng.bumpB, Rng.bumpS]

/-- Helper: the genome produced by a whole mutate_resolution call, as a
conditional over the two draw outcomes. -/
theorem mutate_resolution_fst (g : BinaryPGA2) (rate : ℚ) (r : Rng) :
    (mutate_resolution g rate r).1 =
      if (Rng.genBool rate (Rng.genBool rate r).2).1 then
        BinaryPGA2.decrease_resolution
          (if (Rng.genBool rate r).1 then
            BinaryPGA2.mk (g.bits ++ [(((Rng.genBool rate r).2).genBit).1])
          else g)
      else
        (if (Rng.genBool rate r).1 then
          BinaryPGA2.mk (g.bits ++ [(((Rng.genBool rate r).2).genBit).1])
        else g) := by
  unfold mutate_resolution mutRes2
  rw [apply_ite Prod.fst]
  simp only []
  rw [second_draw_fst_eq, mutRes1_fst]

end EvolvableNumerals

namespace EvolvableNumerals

/-- Helper: above resolution one, decrease_resolution drops exactly one
bit. -/
theorem decrease_res_of_gt {g : BinaryPGA2} (h : 1 < g.resolution) :
    (g.decrease_resolution).resolution = g.resolution - 1 := by
  unfold BinaryPGA2.resolution at *
  unfold BinaryPGA2.decrease_resolution
  rw [if_pos h]
  simp [List.length_dropLast]

/-- Helper: at resolution one, decrease_resolution changes nothing. -/
theorem decrease_resolution_noop {g : BinaryPGA2} (h : g.resolution = 1) :
    g.decrease_resolution = g := by
  unfold BinaryPGA2.resolution at h
  unfold BinaryPGA2.decrease_resolution
  rw [if_neg (by omega)]

/-- Helper: popping the bit just appended restores the genome. -/
theorem decrease_concat (g : BinaryPGA2) (b : Bool) (h : 1 ≤ g.resolution) :
    BinaryPGA2.decrease_resolution (BinaryPGA2.mk (g.bits ++ [b])) = g := by
  obtain ⟨bs⟩ := g
  unfold BinaryPGA2.resolution at h
  unfold BinaryPGA2.decrease_resolution
  rw [if_pos (by simp at h ⊢; omega)]
  rw [List.dropLast_concat]

/-- Helper: one mutate_resolution call leaves the resolution unchanged,
raises it by one, or lowers it by one (the last only from above one). -/
theorem mutate_resolution_res_cases (g : BinaryPGA2) (rate : ℚ) (r : Rng)
    (hres : 1 ≤ g.resolution) :
    ((mutate_resolution g rate r).1).resolution = g.resolution ∨
    ((mutate_resolution g rate r).1).resolution = g.resolution + 1 ∨
    (((mutate_resolution g rate r).1).resolution = g.resolution - 1 ∧
      1 < g.resolution) := by
  cases hb1 : (Rng.genBool rate r).1 with
  | false =>
      cases hb2 : (Rng.genBool rate (Rng.genBool rate r).2).1 with
      | false =>
          left
          rw [mutate_resolution_fst, hb1, hb2]
          simp
      | true =>
          by_cases hgt : 1 < g.resolution
          · right; right
            refine ⟨?_, hgt⟩
            rw [mutate_resolution_fst, hb1, hb2]
            simpa using decrease_res_of_gt hgt
          · left
            have h1 : g.resolution = 1 := by omega
            rw [mutate_resolution_fst, hb1, hb2]
            simpa using congrArg BinaryPGA2.resolution (decrease_resolution_noop h1)
  | true =>
      cases hb2 : (Rng.genBool rate (Rng.genBool rate r).2).1 with
      | false =>
          right; left
          rw [mutate_resolution_fst, hb1, hb2]
          simp [BinaryPGA2.resolution]
      | true =>
          left
          rw [mutate_resolution_fst, hb1, hb2]
          simpa using congrArg BinaryPGA2.resolution (decrease_concat g _ hres)

/-- Helper: the first two draws of the constructed generator realize any
prescribed pair of Bernoulli outcomes when the rate is strictly between
zero and one. -/
theorem twoDrawRng_draws (rate : ℚ) (h0 : 0 < rate) (h1 : rate < 1) (o1 o2 : Bool) :
    (Rng.genBool rate (twoDrawRng rate h0.le h1 o1 o2)).1 = o1 ∧
    (Rng.genBool rate (Rng.genBool rate (twoDrawRng rate h0.le h1 o1 o2)).2).1 = o2 := by
  cases o1 <;> cases o2 <;>
    simp [twoDrawRng, Rng.genBool, Rng.bumpS, h0, lt_irrefl]

end EvolvableNumerals

namespace EvolvableNumerals

/-- C8: mutate_resolution performs two Bernoulli draws at mutation_rate,
the first gating an increase of resolution by one and the second gating
a decrease by one (a no-op at resolution one); the net change of one
call is always minus one, zero or plus one, when both draws fire the
resolution is unchanged, and for any rate strictly between zero and one
all four outcome pairs are realized by some generator. -/
theorem mutate_resolution_two_draws (g : BinaryPGA2) (rate : ℚ) (r : Rng)
    (hres : 1 ≤ g.resolution) (hr0 : 0 < rate) (hr1 : rate < 1) :
    (∃ d : ℤ,
        (((mutate_resolution g rate r).1).resolution : ℤ) =
          (g.resolution : ℤ) + d ∧ (d = -1 ∨ d = 0 ∨ d = 1)) ∧
    ((Rng.genBool rate r).1 = true →
      (Rng.genBool rate (Rng.genBool rate r).2).1 = true →
      ((mutate_resolution g rate r).1).resolution = g.resolution) ∧
    ((Rng.genBool rate r).1 = true →
      (Rng.genBool rate (Rng.genBool rate r).2).1 = false →
      ((mutate_resolution g rate r).1).resolution = g.resolution + 1) ∧
    ((Rng.genBool rate r).1 = false →
      (Rng.genBool rate (Rng.genBool rate r).2).1 = true →
      (1 < g.resolution →
        ((mutate_resolution g rate r).1).resolution = g.resolution - 1) ∧
      (g.resolution = 1 →
        ((mutate_resolution g rate r).1).resolution = g.resolution)) ∧
    ((Rng.genBool rate r).1 = false →
      (Rng.genBool rate (Rng.genBool rate r).2).1 = false →
      (mutate_resolution g rate r).1 = g) ∧
    (∀ o1 o2 : Bool, ∃ r2 : Rng,
      (Rng.genBool rate r2).1 = o1 ∧
      (Rng.genBool rate (Rng.genBool rate r2).2).1 = o2) := by
  refine ⟨?_, ?_, ?_, ?_, ?_, ?_⟩
  · refine ⟨(((mutate_resolution g rate r).1).resolution : ℤ) - (g.resolution : ℤ),
      by ring, ?_⟩
    rcases mutate_resolution_res_cases g rate r hres with h | h | ⟨h, hgt⟩ <;> omega
  · intro hb1 hb2
    rw [mutate_resolution_fst, hb1, hb2]
    simpa using congrArg BinaryPGA2.resolution (decrease_concat g _ hres)
  · intro hb1 hb2
    rw [mutate_resolution_fst, hb1, hb2]
    simp [BinaryPGA2.resolution]
  · intro hb1 hb2
    constructor
    · intro hgt
      rw [mutate_resolution_fst, hb1, hb2]
      simpa using decrease_res_of_gt hgt
    · intro h1
      rw [mutate_resolution_fst, hb1, hb2]
      simpa using congrArg BinaryPGA2.resolution (decrease_resolution_noop h1)
  · intro hb1 hb2
    rw [mutate_resolution_fst, hb1, hb2]
    simp
  · intro o1 o2
    exact ⟨twoDrawRng rate hr0.le hr1 o1 o2, twoDrawRng_draws rate hr0 hr1 o1 o2⟩

theorem mutate_resolution_two_draws_witness :
    (∃ d : ℤ,
        (((mutate_resolution (BinaryPGA2.mk [true]) (1/2) rngZero).1).resolution : ℤ) =
          ((BinaryPGA2.mk [true]).resolution : ℤ) + d ∧ (d = -1 ∨ d = 0 ∨ d = 1)) ∧
    ((mutate_resolution (BinaryPGA2.mk [true]) (1/2) rngZero).1).resolution =
      (BinaryPGA2.mk [true]).resolution ∧
    (∃ r2 : Rng, (Rng.genBool (1/2) r2).1 = false ∧
      (Rng.genBool (1/2) (Rng.genBool (1/2) r2).2).1 = true) := by
  have h := mutate_resolution_two_draws (BinaryPGA2.mk [true]) (1/2) rngZero
    (by decide) (by norm_num) (by norm_num)
  have hb1 : (Rng.genBool (1/2) rngZero).1 = true := by
    simp [Rng.genBool, rngZero]
  have hb2 : (Rng.genBool (1/2) (Rng.genBool (1/2) rngZero).2).1 = true := by
    simp [Rng.genBool, rngZero, Rng.bumpS]
  exact ⟨h.1, h.2.1 hb1 hb2, h.2.2.2.2.2 false true⟩

/-- C10: when both draws of one mutate_resolution call fire, the bit
appended by increase_resolution is the one removed by
decrease_resolution, leaving the genome bit-for-bit unchanged. -/
theorem mutate_resolution_both_fire_identity (g : BinaryPGA2) (rate : ℚ) (r : Rng)
    (hres : 1 ≤ g.resolution)
    (hb1 : (Rng.genBool rate r).1 = true)
    (hb2 : (Rng.genBool rate (Rng.genBool rate r).2).1 = true) :
    (mutate_resolution g rate r).1 = g := by
  rw [mutate_resolution_fst, hb1, hb2]
  simpa using decrease_concat g _ hres

theorem mutate_resolution_both_fire_identity_witness :
    (mutate_resolution (BinaryPGA2.mk [true, false]) (1/2) rngZero).1 =
      BinaryPGA2.mk [true, false] := by
  have hb1 : (Rng.genBool (1/2) rngZero).1 = true := by
    simp [Rng.genBool, rngZero]
  have hb2 : (Rng.genBool (1/2) (Rng.genBool (1/2) rngZero).2).1 = true := by
    simp [Rng.genBool, rngZero, Rng.bumpS]
  exact mutate_resolution_both_fire_identity (BinaryPGA2.mk [true, false]) (1/2)
    rngZero (by decide) hb1 hb2

/-- C9: with_resolution applied to zero yields a genome of resolution
zero, breaking the resolution-at-least-one invariant, and the f64
projection of that genome evaluates the division of zero set bits by
zero resolution, which is the NaN case of the IEEE computation (none in
this model). -/
theorem with_resolution_zero_breaks_invariant (r : Rng) (lower upper : ℚ) :
    ((BinaryPGA2.with_resolution 0 r).1).resolution = 0 ∧
    ((BinaryPGA2.with_resolution 0 r).1).setBitCount = 0 ∧
    ((BinaryPGA2.with_resolution 0 r).1).f64 lower upper = none :=
  ⟨rfl, rfl, rfl⟩

theorem decrease_resolution_spec_witness :
    ((BinaryPGA2.decrease_resolution (BinaryPGA2.mk [true, true])).resolution =
        (BinaryPGA2.mk [true, true]).resolution - 1 ∧
      (BinaryPGA2.decrease_resolution (BinaryPGA2.mk [true, true])).bits =
        (BinaryPGA2.mk [true, true]).bits.dropLast) ∧
    BinaryPGA2.decrease_resolution (BinaryPGA2.mk [false]) = BinaryPGA2.mk [false] ∧
    1 ≤ ((runOps ops0 (BinaryPGA2.new rngZero)).1).resolution ∧
    1 ≤ ((runOps ops0 (BinaryPGA2.with_resolution 3 rngZero)).1).resolution := by
  have h1 := decrease_resolution_spec (BinaryPGA2.mk [true, true]) 3 rngZero rngZero
    ops0 (by norm_num)
  have h2 := decrease_resolution_spec (BinaryPGA2.mk [false]) 3 rngZero rngZero
    ops0 (by norm_num)
  exact ⟨h1.1 (by decide), h2.2.1 (by decide), h1.2.2.1, h1.2.2.2⟩

end EvolvableNumerals
